import Mathlib

/-!
# Verification of the k-NN classifier (`knn_classifier` crate)

Shallow embedding of `src/lib.rs`.  Modelling conventions:

* Rust `f64` values are modelled as exact rationals `ℚ`.  Every `f64` value is a
  dyadic rational, hence has a finite decimal expansion; the predicate
  `IsFiniteDecimal` below captures that subdomain.  The square root used by
  `calc_distance` is modelled by `Real.sqrt`; the prediction pipeline sorts by
  the (rational) squared distance, which orders pairs exactly as the real
  square root does (`calc_distance_le_iff`).
* Rust `String`/`&str` values are modelled as `List Char`.  `trim`, `split`,
  `lines` are re-implemented on `List Char` following their Rust semantics;
  `isRustWhitespace` is the full Unicode White_Space set `char::is_whitespace`
  uses.
* A Rust panic (`unwrap` on `None`/`Err`) is modelled by an `Option` result
  being `none`.
* The `HashMap` tally of `predict_one` has an unspecified iteration order; it
  is modelled as an arbitrary permutation of the insertion-ordered association
  list `tallyOf`.  `maxByKeyLast` mirrors Rust's `Iterator::max_by_key`, which
  returns the *last* maximal element of the iteration.
-/

/-- `struct KnnItem { label: String, data: Vec<f64> }`. -/
structure KnnItem where
  label : List Char
  data : List ℚ
deriving DecidableEq

/-- `struct KnnClassifier { k: usize, items: Vec<KnnItem> }`. -/
structure KnnClassifier where
  k : ℕ
  items : List KnnItem
deriving DecidableEq

/-- `KnnClassifier::new`: `k` defaults to 5 when zero and is bumped to the
next integer when even (`usize` is non-negative, so only `k == 0` takes the
default branch). -/
def KnnClassifier.new (k : ℕ) : KnnClassifier :=
  let k1 := if k > 0 then k else 5
  let k2 := if k1 % 2 = 1 then k1 else k1 + 1
  { k := k2, items := [] }

/-- `KnnClassifier::fit`: zips data with labels (truncating to the shorter
sequence, as `Iterator::zip` does) and appends the pairs to `items`. -/
def KnnClassifier.fit (c : KnnClassifier) (data : List (List ℚ))
    (labels : List (List Char)) : KnnClassifier :=
  { c with items := c.items ++ (data.zip labels).map (fun p => ⟨p.2, p.1⟩) }

/-- `KnnClassifier::fit_one`: appends a single labeled point. -/
def KnnClassifier.fit_one (c : KnnClassifier) (data : List ℚ)
    (label : List Char) : KnnClassifier :=
  { c with items := c.items ++ [⟨label, data⟩] }

/-- Squared Euclidean distance: the sum inside `calc_distance`, i.e.
`a.iter().zip(b.iter()).map(|(x, y)| (x - y).powi(2)).sum()`. -/
def calc_dist_sq (a b : List ℚ) : ℚ :=
  ((a.zip b).map (fun p => (p.1 - p.2) ^ 2)).sum

/-- `calc_distance`: the square root of `calc_dist_sq`. -/
noncomputable def calc_distance (a b : List ℚ) : ℝ :=
  Real.sqrt ((calc_dist_sq a b : ℚ) : ℝ)

/-- `Iterator::enumerate` starting at `n`. -/
def enumF (n : ℕ) : List α → List (ℕ × α)
  | [] => []
  | x :: xs => (n, x) :: enumF (n + 1) xs

/-- The sorted list of `(index, squared distance)` pairs truncated to the `k`
nearest entries: steps 1–3 of `predict_one`.  Rust's `sort_by` with
`partial_cmp` is a stable ascending sort; `List.insertionSort` with `≤` is
also stable, and sorting by squared distance orders pairs exactly as sorting
by the `f64` square root does. -/
def KnnClassifier.neighbors (c : KnnClassifier) (item : List ℚ) : List (ℕ × ℚ) :=
  (List.insertionSort (fun a b : ℕ × ℚ => a.2 ≤ b.2)
    ((enumF 0 c.items).map (fun p => (p.1, calc_dist_sq p.2.data item)))).take c.k

/-- One `*counter_map.entry(label).or_insert(0) += 1` step on an
insertion-ordered association list. -/
def tallyAdd (m : List (List Char × ℕ)) (lab : List Char) : List (List Char × ℕ) :=
  match m with
  | [] => [(lab, 1)]
  | (l, c) :: rest => if l = lab then (l, c + 1) :: rest else (l, c) :: tallyAdd rest lab

/-- The label tally of the `k` nearest neighbors, keyed in first-occurrence
order (the multiset of entries is what the Rust `HashMap` holds; its
iteration order is unspecified, hence theorems below quantify over
permutations of this list). -/
def KnnClassifier.tallyOf (c : KnnClassifier) (item : List ℚ) : List (List Char × ℕ) :=
  (c.neighbors item).foldl (fun m p => tallyAdd m ((c.items.getD p.1 ⟨[], []⟩).label)) []

/-- One comparison step of `Iterator::max_by_key` (keeps the later element on
ties). -/
def voteStep (best y : List Char × ℕ) : List Char × ℕ :=
  if best.2 ≤ y.2 then y else best

/-- `counter_map.into_iter().max_by_key(|&(_, count)| count)`: the last
maximal element of the iteration, `none` on an empty map (where the Rust code
panics on `.unwrap()`). -/
def maxByKeyLast : List (List Char × ℕ) → Option (List Char × ℕ)
  | [] => none
  | x :: xs => some (xs.foldl voteStep x)

/-- Label selection from a tally in a given iteration order. -/
def predictOneTally (t : List (List Char × ℕ)) : Option (List Char) :=
  (maxByKeyLast t).map Prod.fst

/-- `KnnClassifier::predict_one` with the tally iterated in first-occurrence
order; `none` models the panic on an empty tally. -/
def KnnClassifier.predict_one (c : KnnClassifier) (item : List ℚ) : Option (List Char) :=
  predictOneTally (c.tallyOf item)

/-- `KnnClassifier::predict`: independent `predict_one` per query. -/
def KnnClassifier.predict (c : KnnClassifier) (items : List (List ℚ)) :
    List (Option (List Char)) :=
  items.map (fun it => c.predict_one it)

/-! ## Strings: `trim`, `split`, `lines` on `List Char` -/

/-- The Unicode White_Space code points: exactly the characters
`char::is_whitespace` (and hence `str::trim`) recognizes. -/
def rustWsList : List Char :=
  ['\t', '\n', '\u000B', '\u000C', '\r', ' ', '\u0085', '\u00A0', '\u1680',
   '\u2000', '\u2001', '\u2002', '\u2003', '\u2004', '\u2005', '\u2006',
   '\u2007', '\u2008', '\u2009', '\u200A', '\u2028', '\u2029', '\u202F',
   '\u205F', '\u3000']

/-- Rust's `char::is_whitespace`: membership in the Unicode White_Space set. -/
def isRustWhitespace (c : Char) : Bool := rustWsList.contains c

/-- `str::trim`: drop Unicode whitespace from both ends. -/
def trimL (s : List Char) : List Char :=
  ((s.dropWhile isRustWhitespace).reverse.dropWhile isRustWhitespace).reverse

/-- `str::split(char)`: `n` separator occurrences yield `n + 1` pieces,
empty pieces included. -/
def splitChar (d : Char) : List Char → List (List Char)
  | [] => [[]]
  | c :: cs =>
    if c = d then [] :: splitChar d cs
    else
      match splitChar d cs with
      | [] => [[c]]
      | p :: ps => (c :: p) :: ps

/-- Strip one trailing `'\r'` (part of `str::lines`). -/
def stripCR (s : List Char) : List Char :=
  match s.getLast? with
  | some c => if c = '\r' then s.dropLast else s
  | none => s

/-- `str::lines`: split on `'\n'`, drop a final empty piece (so a trailing
newline does not produce an empty last line), strip one trailing `'\r'` per
line. -/
def linesL (s : List Char) : List (List Char) :=
  let parts := splitChar '\n' s
  let parts := if parts.getLast? = some [] then parts.dropLast else parts
  parts.map stripCR

/-! ## Decimal rendering of numbers (`f64::to_string`)

`Display` for `f64` prints the shortest decimal string that reads back to the
same value, in plain (never scientific) notation.  On the rational model this
is the exact finite decimal expansion without trailing zeros, computed by
`fmtQ` below; the two agree on every value whose exact expansion is itself the
shortest round-tripping string (in particular on all values appearing in this
crate).  `Nat.digits` is replaced by the fuel-based `digitsAuxF` so that the
kernel can evaluate concrete instances. -/

/-- Little-endian base-10 digits, structural recursion on a fuel bound. -/
def digitsAuxF : ℕ → ℕ → List ℕ
  | 0, _ => []
  | _ + 1, 0 => []
  | fuel + 1, n + 1 => (n + 1) % 10 :: digitsAuxF fuel ((n + 1) / 10)

/-- Little-endian base-10 digits of `n` (empty for `0`). -/
def decDigitsNat (n : ℕ) : List ℕ := digitsAuxF n n

/-- Big-endian digit characters of `n` (empty for `0`). -/
def decDigits (n : ℕ) : List Char := (decDigitsNat n).reverse.map Nat.digitChar

/-- Decimal rendering of a natural number (`"0"` for `0`). -/
def natToChars (n : ℕ) : List Char :=
  if n = 0 then ['0'] else decDigits n

/-- Fractional digits of `m` rendered to exactly `width` characters by
left-padding with `'0'`. -/
def fracPad (m width : ℕ) : List Char :=
  List.replicate (width - (decDigits m).length) '0' ++ decDigits m

/-- Least `i` in `[start, start + fuel)` with `p i = true` (or the end of the
range when none exists). -/
def findLeast (p : ℕ → Bool) : ℕ → ℕ → ℕ
  | 0, start => start
  | fuel + 1, start => if p start then start else findLeast p fuel (start + 1)

/-- `q` has a finite decimal expansion.  `q.den` powers of ten always suffice
when any number of them does, so this single test is equivalent to
`∃ n, (q * 10 ^ n).den = 1`; every `f64` value (a dyadic rational) satisfies
it. -/
def IsFiniteDecimal (q : ℚ) : Prop := (q * 10 ^ q.den).den = 1

instance (q : ℚ) : Decidable (IsFiniteDecimal q) :=
  inferInstanceAs (Decidable (_ = _))

/-- Number of decimal fraction digits of `q`: the least `k` with
`q * 10 ^ k` integral. -/
def fdExp (q : ℚ) : ℕ :=
  findLeast (fun k => (q * 10 ^ k).den == 1) (q.den + 1) 0

/-- Decimal rendering of a rational with a finite decimal expansion:
optional `'-'`, integer digits, and — when the expansion has fractional
digits — `'.'` followed by exactly `fdExp q` fraction digits. -/
def fmtQ (q : ℚ) : List Char :=
  let k := fdExp q
  let m := (q * 10 ^ k).num
  let a := m.natAbs
  let sgn : List Char := if m < 0 then ['-'] else []
  if k = 0 then sgn ++ natToChars a
  else sgn ++ natToChars (a / 10 ^ k) ++ '.' :: fracPad (a % 10 ^ k) k

/-! ## Decimal parsing (`str::parse::<f64>`) -/

/-- Accumulating digit-string evaluator: fails on any non-digit. -/
def dvAux (v : ℕ) : List Char → Option ℕ
  | [] => some v
  | c :: cs => if c.isDigit then dvAux (10 * v + (c.toNat - 48)) cs else none

/-- Value of a digit string (`some 0` on the empty string). -/
def digitsVal? (s : List Char) : Option ℕ := dvAux 0 s

/-- Value of a non-empty digit string. -/
def digitsValPos? (s : List Char) : Option ℕ :=
  if s = [] then none else digitsVal? s

/-- Split before the first character satisfying `p`: returns the material to
the left and, when a split character exists, the material to its right. -/
def splitAtFirst (p : Char → Bool) : List Char → List Char × Option (List Char)
  | [] => ([], none)
  | c :: cs =>
    if p c then ([], some cs)
    else
      let r := splitAtFirst p cs
      (c :: r.1, r.2)

/-- Mantissa of the `f64` grammar: `Digits [. [Digits]] | . Digits`. -/
def parseMantissa? (s : List Char) : Option ℚ :=
  let pr := splitAtFirst (fun c => c == '.') s
  match pr.2 with
  | none => (digitsValPos? pr.1).map (fun v => (v : ℚ))
  | some fp =>
    if pr.1 = [] ∧ fp = [] then none
    else
      match digitsVal? pr.1, digitsVal? fp with
      | some iv, some fv => some ((iv : ℚ) + (fv : ℚ) / 10 ^ fp.length)
      | _, _ => none

/-- Exponent of the `f64` grammar: `[Sign] Digits`. -/
def parseExp? : List Char → Option ℤ
  | '+' :: r => (digitsValPos? r).map (fun v => (v : ℤ))
  | '-' :: r => (digitsValPos? r).map (fun v => -(v : ℤ))
  | r => (digitsValPos? r).map (fun v => (v : ℤ))

/-- `str::parse::<f64>` on the finite-value grammar
`[Sign] (Mantissa [Exp])`; the non-rational keywords (`inf`, `NaN`, …) fall
outside the rational model and are not produced by `fmtQ`. -/
def parseQ (s : List Char) : Option ℚ :=
  if s = [] then none
  else
    let sgn : ℚ := if s.head? = some '-' then -1 else 1
    let body := if s.head? = some '-' ∨ s.head? = some '+' then s.tail else s
    let me := splitAtFirst (fun c => c == 'e' || c == 'E') body
    match me.2 with
    | none => (parseMantissa? me.1).map (fun v => sgn * v)
    | some es =>
      match parseMantissa? me.1, parseExp? es with
      | some v, some e => some (sgn * v * (10 : ℚ) ^ e)
      | _, _ => none

/-! ## CSV codec -/

/-- One `to_csv` record without its newline: the label, then each rendered
feature, all separated by the delimiter (the Rust loop pushes a trailing
delimiter and `pop`s it). -/
def KnnItem.toLine (it : KnnItem) (d : Char) : List Char :=
  ((it.label ++ [d]) ++ (it.data.map (fun q => fmtQ q ++ [d])).flatten).dropLast

/-- `KnnClassifier::to_csv`: one line per point, each ended by `'\n'`. -/
def KnnClassifier.to_csv (c : KnnClassifier) (d : Char) : List Char :=
  (c.items.map (fun it => it.toLine d ++ ['\n'])).flatten

/-- The enumerated-column loop of `from_csv`: the `label_col`-th column is
trimmed into the label, every other column is trimmed and parsed as a number
(`none` models the panic of `.parse().unwrap()` on a malformed field). -/
def parseCols : List (ℕ × List Char) → ℕ → List Char → List ℚ →
    Option (List Char × List ℚ)
  | [], _, lab, dat => some (lab, dat)
  | (i, col) :: rest, lc, lab, dat =>
    if i = lc then parseCols rest lc (trimL col) dat
    else
      match parseQ (trimL col) with
      | some v => parseCols rest lc lab (dat ++ [v])
      | none => none

/-- Parse one (already trimmed, non-blank) CSV line into a point. -/
def parseLine (line : List Char) (d : Char) (lc : ℕ) : Option KnnItem :=
  (parseCols (enumF 0 (splitChar d line)) lc [] []).map (fun p => ⟨p.1, p.2⟩)

/-- The line loop of `from_csv`: trim, skip blanks, parse, append. -/
def fromCsvLines : List (List Char) → Char → ℕ → List KnnItem → Option (List KnnItem)
  | [], _, _, acc => some acc
  | line :: rest, d, lc, acc =>
    let t := trimL line
    if t = [] then fromCsvLines rest d lc acc
    else
      match parseLine t d lc with
      | some it => fromCsvLines rest d lc (acc ++ [it])
      | none => none

/-- `KnnClassifier::from_csv`: split into lines, unconditionally drop the
first raw line when `skip_header` (the `i == 0` continue), then run the line
loop, appending to the existing points. -/
def KnnClassifier.from_csv (c : KnnClassifier) (s : List Char) (d : Char)
    (label_col : ℕ) (skip_header : Bool) : Option KnnClassifier :=
  let ls := linesL s
  let ls := if skip_header then ls.tail else ls
  (fromCsvLines ls d label_col c.items).map (fun items => { c with items := items })

/-! ## Hypothesis vocabulary for the round-trip law -/

/-- The characters `fmtQ` can emit. -/
def fmtCharList : List Char := ['0', '1', '2', '3', '4', '5', '6', '7', '8', '9', '-', '.']

/-- A delimiter that collides neither with number formatting nor with
whitespace trimming. -/
def goodDelim (d : Char) : Prop := d ∉ fmtCharList ∧ isRustWhitespace d = false

instance (d : Char) : Decidable (goodDelim d) := inferInstanceAs (Decidable (_ ∧ _))

/-- A label the CSV codec transports verbatim: unchanged by trimming and free
of the delimiter and of newlines. -/
def goodLabel (d : Char) (l : List Char) : Prop :=
  trimL l = l ∧ d ∉ l ∧ '\n' ∉ l

instance (d : Char) (l : List Char) : Decidable (goodLabel d l) :=
  inferInstanceAs (Decidable (_ ∧ _ ∧ _))

/-- A point the CSV codec round-trips: a good label, a non-blank record, and
finite-decimal features. -/
def goodItem (d : Char) (it : KnnItem) : Prop :=
  goodLabel d it.label ∧ (it.label ≠ [] ∨ it.data ≠ []) ∧
    ∀ q ∈ it.data, IsFiniteDecimal q

instance (d : Char) (it : KnnItem) : Decidable (goodItem d it) :=
  inferInstanceAs (Decidable (_ ∧ _ ∧ _))

/-! ## Concrete stores used by the scenario claims -/

/-- Scenario A store: five points, two classes, `k = 3`. -/
def scenarioA : KnnClassifier :=
  (KnnClassifier.new 3).fit
    [[170, 60], [166, 58], [152, 99], [163, 95], [150, 90]]
    ["Normal".toList, "Normal".toList, "Obesity".toList, "Obesity".toList,
      "Obesity".toList]

/-- Scenario B store: three `"Obesity"` points. -/
def scenarioB : KnnClassifier :=
  (((KnnClassifier.new 5).fit_one [150, 80] "Obesity".toList).fit_one
      [153, 69] "Obesity".toList).fit_one [153, 94] "Obesity".toList

/-- A two-point store whose vote ties (used against the determinism claim). -/
def tieStore : KnnClassifier := ⟨3, [⟨['A'], [0]⟩, ⟨['B'], [1]⟩]⟩

/-- A one-point store with a dominant tally entry. -/
def soloStore : KnnClassifier := ⟨1, [⟨['A'], [0]⟩]⟩

/-- A store whose label carries leading whitespace (used against the
round-trip claim). -/
def padLabelStore : KnnClassifier := ⟨5, [⟨[' ', 'a'], [1]⟩]⟩

/-- Columns joined by a single delimiter character (the shape of one
`to_csv` record, see `KnnItem.toLine_eq_interD`). -/
def interD (d : Char) : List (List Char) → List Char
  | [] => []
  | x :: xs =>
    match xs with
    | [] => x
    | _ :: _ => x ++ d :: interD d xs

/-! ## Helper lemmas -/

lemma KnnClassifier.new_k (k : ℕ) :
    (KnnClassifier.new k).k = if k = 0 then 5 else if k % 2 = 0 then k + 1 else k := by
  simp only [KnnClassifier.new]
  split_ifs <;> omega

lemma KnnClassifier.new_items (k : ℕ) : (KnnClassifier.new k).items = [] := rfl

lemma KnnClassifier.new_k_odd (k : ℕ) :
    (KnnClassifier.new k).k % 2 = 1 ∧ 0 < (KnnClassifier.new k).k := by
  rw [KnnClassifier.new_k]
  split_ifs <;> omega

lemma calc_dist_sq_comm (a b : List ℚ) : calc_dist_sq a b = calc_dist_sq b a := by
  induction a generalizing b with
  | nil => cases b <;> simp [calc_dist_sq]
  | cons x xs ih =>
    cases b with
    | nil => simp [calc_dist_sq]
    | cons y ys =>
      simp only [calc_dist_sq, List.zip_cons_cons, List.map_cons, List.sum_cons] at *
      rw [show (x - y) ^ 2 = (y - x) ^ 2 by ring, ih]

lemma calc_dist_sq_self (a : List ℚ) : calc_dist_sq a a = 0 := by
  induction a with
  | nil => simp [calc_dist_sq]
  | cons x xs ih =>
    simp only [calc_dist_sq, List.zip_cons_cons, List.map_cons, List.sum_cons] at *
    simp [ih]

lemma calc_dist_sq_nonneg (a b : List ℚ) : 0 ≤ calc_dist_sq a b := by
  induction a generalizing b with
  | nil => cases b <;> simp [calc_dist_sq]
  | cons x xs ih =>
    cases b with
    | nil => simp [calc_dist_sq]
    | cons y ys =>
      simp only [calc_dist_sq, List.zip_cons_cons, List.map_cons, List.sum_cons] at *
      exact add_nonneg (sq_nonneg _) (ih ys)

/-- Sorting by the real square root of the squared distance orders pairs
exactly as sorting by the squared distance itself: the key substitution made
in `KnnClassifier.neighbors` is faithful. -/
lemma calc_distance_le_iff (a b a' b' : List ℚ) :
    calc_distance a b ≤ calc_distance a' b' ↔ calc_dist_sq a b ≤ calc_dist_sq a' b' := by
  unfold calc_distance
  rw [Real.sqrt_le_sqrt_iff (by exact_mod_cast calc_dist_sq_nonneg a' b')]
  exact_mod_cast Iff.rfl

lemma enumF_length : ∀ (l : List α) (n : ℕ), (enumF n l).length = l.length
  | [], _ => rfl
  | _ :: xs, n => by simp [enumF, enumF_length xs (n + 1)]

lemma tallyAdd_ne_nil (m : List (List Char × ℕ)) (lab : List Char) :
    tallyAdd m lab ≠ [] := by
  cases m with
  | nil => simp [tallyAdd]
  | cons p rest =>
    obtain ⟨l, c⟩ := p
    simp only [tallyAdd]
    split_ifs <;> simp

lemma foldl_tallyAdd_ne_nil (g : α → List Char) :
    ∀ (L : List α) (m : List (List Char × ℕ)), m ≠ [] ∨ L ≠ [] →
      L.foldl (fun m x => tallyAdd m (g x)) m ≠ [] := by
  intro L
  induction L with
  | nil => intro m h; simpa using h
  | cons x xs ih =>
    intro m _
    exact ih (tallyAdd m (g x)) (Or.inl (tallyAdd_ne_nil m (g x)))

lemma KnnClassifier.neighbors_length (c : KnnClassifier) (item : List ℚ) :
    (c.neighbors item).length = min c.k c.items.length := by
  simp [KnnClassifier.neighbors, List.length_insertionSort, enumF_length]

lemma KnnClassifier.tallyOf_ne_nil (c : KnnClassifier) (q : List ℚ)
    (h : c.items ≠ []) (hk : 0 < c.k) : c.tallyOf q ≠ [] := by
  apply foldl_tallyAdd_ne_nil
  refine Or.inr (List.ne_nil_of_length_pos ?_)
  rw [KnnClassifier.neighbors_length]
  have := List.length_pos.mpr h
  omega

lemma predictOneTally_isSome (t : List (List Char × ℕ)) (h : t ≠ []) :
    ∃ l, predictOneTally t = some l := by
  cases t with
  | nil => exact absurd rfl h
  | cons x xs => exact ⟨_, rfl⟩

lemma foldl_voteStep_mem : ∀ (xs : List (List Char × ℕ)) (x),
    xs.foldl voteStep x ∈ x :: xs := by
  intro xs
  induction xs with
  | nil => intro x; simp
  | cons y ys ih =>
    intro x
    have h := ih (voteStep x y)
    rcases List.mem_cons.mp h with h | h
    · rw [List.foldl_cons]
      have : voteStep x y = x ∨ voteStep x y = y := by
        unfold voteStep; split_ifs <;> simp
      rcases this with h' | h' <;> rw [h] at * <;> simp [h']
    · simp [List.foldl_cons]
      right; right; exact h

lemma foldl_voteStep_le : ∀ (xs : List (List Char × ℕ)) (x y),
    y ∈ x :: xs → y.2 ≤ (xs.foldl voteStep x).2 := by
  intro xs
  induction xs with
  | nil =>
    intro x y hy
    rcases List.mem_cons.mp hy with h | h
    · subst h; exact le_refl _
    · simp at h
  | cons z zs ih =>
    intro x y hy
    have hstep : x.2 ≤ (voteStep x z).2 ∧ z.2 ≤ (voteStep x z).2 := by
      unfold voteStep
      split_ifs with h
      · exact ⟨h, le_refl _⟩
      · exact ⟨le_refl _, le_of_not_le h⟩
    rw [List.foldl_cons]
    rcases List.mem_cons.mp hy with h | h
    · rw [h]
      exact le_trans hstep.1 (ih (voteStep x z) _ (List.mem_cons_self _ _))
    · rcases List.mem_cons.mp h with h' | h'
      · rw [h']
        exact le_trans hstep.2 (ih (voteStep x z) _ (List.mem_cons_self _ _))
      · exact ih (voteStep x z) y (List.mem_cons_of_mem _ h')

/-- Any iteration order of a tally with a strictly dominant entry selects that
entry. -/
lemma maxByKeyLast_dominant {t t' : List (List Char × ℕ)} {p : List Char × ℕ}
    (hperm : t'.Perm t) (hp : p ∈ t) (hdom : ∀ x ∈ t, x ≠ p → x.2 < p.2) :
    maxByKeyLast t' = some p := by
  have hp' : p ∈ t' := hperm.mem_iff.mpr hp
  cases t' with
  | nil => simp at hp'
  | cons x xs =>
    have hrmem : xs.foldl voteStep x ∈ x :: xs := foldl_voteStep_mem xs x
    have hrt : xs.foldl voteStep x ∈ t := hperm.subset hrmem
    have hle : p.2 ≤ (xs.foldl voteStep x).2 := foldl_voteStep_le xs x p hp'
    by_cases hr : xs.foldl voteStep x = p
    · simp [maxByKeyLast, hr]
    · have := hdom _ hrt hr
      omega

lemma fitItems_getElem (data : List (List ℚ)) (labels : List (List Char)) :
    ∀ (i : ℕ) (x : List ℚ) (y : List Char), data[i]? = some x → labels[i]? = some y →
      ((data.zip labels).map (fun p => (⟨p.2, p.1⟩ : KnnItem)))[i]? = some ⟨y, x⟩ := by
  induction data generalizing labels with
  | nil => intro i x y hx; simp at hx
  | cons a as ih =>
    intro i x y hx hy
    cases labels with
    | nil => simp at hy
    | cons b bs =>
      cases i with
      | zero =>
        simp only [List.getElem?_cons_zero, Option.some_inj] at hx hy
        simp [hx, hy]
      | succ j =>
        simp only [List.getElem?_cons_succ] at hx hy
        simpa using ih bs j x y hx hy

/-! ## Claim theorems (C2–C10) -/

/-- C4: `new` cannot fail and normalizes `k`: the store starts with no
points, and the effective `k` is 5 for a zero request (`usize` admits no
negative request), the request plus one for an even positive request, and
the request itself for an odd request; in particular `new 0` and `new 4`
yield `k = 5` and `new 7` yields `k = 7`. -/
theorem claim4_new_normalization (k : ℕ) :
    (KnnClassifier.new k).items = [] ∧
      (KnnClassifier.new k).k = if k = 0 then 5 else if k % 2 = 0 then k + 1 else k :=
  ⟨KnnClassifier.new_items k, KnnClassifier.new_k k⟩

/-- C8: `calc_distance` is symmetric on equal-length vectors and zero on
identical vectors. -/
theorem claim8_distance_symmetry (a b : List ℚ) (h : a.length = b.length) :
    calc_distance a b = calc_distance b a ∧ calc_distance a a = 0 := by
  constructor
  · unfold calc_distance
    rw [calc_dist_sq_comm]
  · unfold calc_distance
    rw [calc_dist_sq_self]
    simp

/-- Witness for C8 at concrete vectors. -/
theorem claim8_distance_symmetry_witness :
    ([1, 2] : List ℚ).length = ([3, 4] : List ℚ).length ∧
      (calc_distance [1, 2] [3, 4] = calc_distance [3, 4] [1, 2] ∧
        calc_distance [1, 2] [1, 2] = 0) :=
  ⟨rfl, claim8_distance_symmetry [1, 2] [3, 4] rfl⟩

/-- C9: `fit` appends exactly `min (length data) (length labels)` points,
pairing the sequences positionally in order, leaves the previously stored
points unchanged, and raises no error (it is total). -/
theorem claim9_fit_zip (c : KnnClassifier) (data : List (List ℚ))
    (labels : List (List Char)) :
    (c.fit data labels).items.length = c.items.length + min data.length labels.length ∧
      (c.fit data labels).items.take c.items.length = c.items ∧
      ∀ (i : ℕ) (x : List ℚ) (y : List Char), data[i]? = some x → labels[i]? = some y →
        (c.fit data labels).items[c.items.length + i]? = some ⟨y, x⟩ := by
  refine ⟨?_, ?_, ?_⟩
  · simp [KnnClassifier.fit]
  · simp [KnnClassifier.fit, List.take_left]
  · intro i x y hx hy
    have : (c.fit data labels).items = c.items ++
        (data.zip labels).map (fun p => (⟨p.2, p.1⟩ : KnnItem)) := rfl
    rw [this, List.getElem?_append_right (by omega)]
    simpa using fitItems_getElem data labels i x y hx hy

/-- Witness for C9 on sequences of unequal length (`min 2 1 = 1` point
appended, the pair beyond the shorter sequence dropped). -/
theorem claim9_fit_zip_witness :
    ((KnnClassifier.new 3).fit [[1], [2]] [['a']]).items.length =
        (KnnClassifier.new 3).items.length + min 2 1 ∧
      ((KnnClassifier.new 3).fit [[1], [2]] [['a']]).items.take
          (KnnClassifier.new 3).items.length = (KnnClassifier.new 3).items ∧
      ((KnnClassifier.new 3).fit [[1], [2]] [['a']]).items[(KnnClassifier.new 3).items.length + 0]? =
        some ⟨['a'], [1]⟩ :=
  ⟨(claim9_fit_zip (KnnClassifier.new 3) [[1], [2]] [['a']]).1,
    (claim9_fit_zip (KnnClassifier.new 3) [[1], [2]] [['a']]).2.1,
    (claim9_fit_zip (KnnClassifier.new 3) [[1], [2]] [['a']]).2.2 0 [1] ['a'] rfl rfl⟩

/-- C10: `new` establishes an odd positive `k`, and every store-returning
operation (`fit`, `fit_one`, and a successful `from_csv`) preserves `k`
exactly (`predict_one`, `predict` and `to_csv` take the store immutably and
return no store, so they cannot change `k`). -/
theorem claim10_k_invariant (k₀ : ℕ) (c c' : KnnClassifier) (data : List (List ℚ))
    (labels : List (List Char)) (dt : List ℚ) (lb : List Char) (s : List Char)
    (d : Char) (lc : ℕ) (sh : Bool) (h : c.from_csv s d lc sh = some c') :
    ((KnnClassifier.new k₀).k % 2 = 1 ∧ 0 < (KnnClassifier.new k₀).k) ∧
      (c.fit data labels).k = c.k ∧ (c.fit_one dt lb).k = c.k ∧ c'.k = c.k := by
  refine ⟨KnnClassifier.new_k_odd k₀, rfl, rfl, ?_⟩
  simp only [KnnClassifier.from_csv, Option.map_eq_some'] at h
  obtain ⟨its, _, rfl⟩ := h
  rfl

/-- Witness for C10 at a concrete successful `from_csv`. -/
theorem claim10_k_invariant_witness :
    (KnnClassifier.new 3).from_csv "A,1".toList ',' 0 false =
        some ⟨3, [⟨['A'], [1]⟩]⟩ ∧
      (((KnnClassifier.new 4).k % 2 = 1 ∧ 0 < (KnnClassifier.new 4).k) ∧
        ((KnnClassifier.new 3).fit [[2]] [['B']]).k = (KnnClassifier.new 3).k ∧
        ((KnnClassifier.new 3).fit_one [3] ['C']).k = (KnnClassifier.new 3).k ∧
        (⟨3, [⟨['A'], [1]⟩]⟩ : KnnClassifier).k = (KnnClassifier.new 3).k) :=
  ⟨by with_unfolding_all rfl,
    claim10_k_invariant 4 (KnnClassifier.new 3) ⟨3, [⟨['A'], [1]⟩]⟩ [[2]] [['B']]
      [3] ['C'] "A,1".toList ',' 0 false (by with_unfolding_all rfl)⟩

/-- C6: Scenario B, exact serialization: three `"Obesity"` points with
features `[150,80]`, `[153,69]`, `[153,94]` export with delimiter `','` to
exactly `"Obesity,150,80\nObesity,153,69\nObesity,153,94\n"`. -/
theorem claim6_scenarioB_csv :
    scenarioB.to_csv ',' =
      "Obesity,150,80\nObesity,153,69\nObesity,153,94\n".toList := by
  with_unfolding_all rfl

/-- C3: the code path, not the claim: on an empty store `predict_one`
reaches `.unwrap()` on the empty tally's missing maximum and panics
(modelled by `none`) instead of surfacing a "no training data" error; on any
store with at least one point and positive `k` (every `new`-built store has
`0 < k`) it returns a label, even when fewer than `k` points are stored. -/
theorem claim3_empty_model_behavior :
    ((KnnClassifier.new 3).predict_one [159, 85] = none) ∧
      ∀ (c : KnnClassifier) (q : List ℚ), c.items ≠ [] → 0 < c.k →
        ∃ l, c.predict_one q = some l := by
  constructor
  · with_unfolding_all rfl
  · intro c q h hk
    exact predictOneTally_isSome _ (KnnClassifier.tallyOf_ne_nil c q h hk)

/-- Witness for C3's graceful-degradation half: one stored point, `k = 5`. -/
theorem claim3_empty_model_behavior_witness :
    (⟨5, [⟨['A'], [0]⟩]⟩ : KnnClassifier).items ≠ [] ∧
      0 < (⟨5, [⟨['A'], [0]⟩]⟩ : KnnClassifier).k ∧
      ∃ l, (⟨5, [⟨['A'], [0]⟩]⟩ : KnnClassifier).predict_one [7] = some l :=
  ⟨by simp, by simp,
    claim3_empty_model_behavior.2 ⟨5, [⟨['A'], [0]⟩]⟩ [7] (by simp) (by simp)⟩

/-- C7: the code path, not the claim: a non-label column that does not parse
as a number makes `from_csv` hit `.parse().unwrap()` and panic (modelled by
`none`) rather than surface a `ParseError` value to the caller. -/
theorem claim7_parse_panic :
    (KnnClassifier.new 5).from_csv "Obesity,abc".toList ',' 0 false = none := by
  with_unfolding_all rfl

/-- C5: Scenario A: with the five-point, `k = 3` store, the query
`[159,85]` is classified `"Obesity"` and `[165,55]` is classified
`"Normal"`, under every iteration order of the vote tally. -/
theorem claim5_scenarioA_predictions :
    (∀ t, t.Perm (scenarioA.tallyOf [159, 85]) →
        predictOneTally t = some "Obesity".toList) ∧
      (∀ t, t.Perm (scenarioA.tallyOf [165, 55]) →
        predictOneTally t = some "Normal".toList) := by
  have h1 : scenarioA.tallyOf [159, 85] = [("Obesity".toList, 3)] := by
    with_unfolding_all rfl
  have h2 : scenarioA.tallyOf [165, 55] =
      [("Normal".toList, 2), ("Obesity".toList, 1)] := by
    with_unfolding_all rfl
  constructor
  · intro t ht
    rw [h1] at ht
    have hmax : maxByKeyLast t = some ("Obesity".toList, 3) := by
      refine maxByKeyLast_dominant ht (by simp) ?_
      intro x hx hne
      simp only [List.mem_singleton] at hx
      exact absurd hx hne
    simp [predictOneTally, hmax]
  · intro t ht
    rw [h2] at ht
    have hmax : maxByKeyLast t = some ("Normal".toList, 2) := by
      refine maxByKeyLast_dominant ht (by simp) ?_
      intro x hx hne
      rcases List.mem_cons.mp hx with h | h
      · exact absurd h hne
      · simp only [List.mem_singleton] at h
        rw [h]
        omega
    simp [predictOneTally, hmax]

/-- Witness for C5 at the tally's own (first-occurrence) iteration order,
i.e. the canonical `predict_one`. -/
theorem claim5_scenarioA_predictions_witness :
    scenarioA.predict_one [159, 85] = some "Obesity".toList ∧
      scenarioA.predict_one [165, 55] = some "Normal".toList :=
  ⟨claim5_scenarioA_predictions.1 _ (List.Perm.refl _),
    claim5_scenarioA_predictions.2 _ (List.Perm.refl _)⟩

/-- C2 counterexample: with two stored points of distinct labels and `k = 3`
both labels tally one vote, and two admissible `HashMap` iteration orders of
that tally (it and its reverse) make `predict_one` return different labels;
repeated calls each build a fresh `HashMap` whose order is unspecified, so
the claimed call-to-call determinism fails on the code. -/
theorem claim2_determinism_counterexample :
    ((tieStore.tallyOf [0]).reverse).Perm (tieStore.tallyOf [0]) ∧
      predictOneTally ((tieStore.tallyOf [0]).reverse) ≠
        predictOneTally (tieStore.tallyOf [0]) := by
  constructor
  · exact List.reverse_perm _
  · have h1 : predictOneTally ((tieStore.tallyOf [0]).reverse) = some ['A'] := by
      with_unfolding_all rfl
    have h2 : predictOneTally (tieStore.tallyOf [0]) = some ['B'] := by
      with_unfolding_all rfl
    rw [h1, h2]
    simp

/-- C2 (amended): for a fixed store and query, any two tally iteration
orders produce the same label provided one tally entry strictly dominates
all others — in particular whenever the vote has no tie. -/
theorem claim2_determinism_amended (c : KnnClassifier) (q : List ℚ)
    (t₁ t₂ : List (List Char × ℕ))
    (h₁ : t₁.Perm (c.tallyOf q)) (h₂ : t₂.Perm (c.tallyOf q))
    (hdom : ∃ p ∈ c.tallyOf q, ∀ x ∈ c.tallyOf q, x ≠ p → x.2 < p.2) :
    predictOneTally t₁ = predictOneTally t₂ := by
  obtain ⟨p, hp, hd⟩ := hdom
  rw [predictOneTally, predictOneTally,
    maxByKeyLast_dominant h₁ hp hd, maxByKeyLast_dominant h₂ hp hd]

/-- Witness for the amended C2 at a one-point store (dominant tally entry),
comparing the canonical order with the reversed order. -/
theorem claim2_determinism_amended_witness :
    ((soloStore.tallyOf [0]).reverse).Perm (soloStore.tallyOf [0]) ∧
      (∃ p ∈ soloStore.tallyOf [0], ∀ x ∈ soloStore.tallyOf [0], x ≠ p → x.2 < p.2) ∧
      predictOneTally (soloStore.tallyOf [0]) =
        predictOneTally ((soloStore.tallyOf [0]).reverse) :=
  ⟨List.reverse_perm _,
    of_decide_eq_true (by with_unfolding_all rfl),
    claim2_determinism_amended soloStore [0] _ _ (List.Perm.refl _)
      (List.reverse_perm _) (of_decide_eq_true (by with_unfolding_all rfl))⟩

/-! ## Digit-string lemmas -/

lemma digitsAuxF_eq_digits : ∀ (fuel n : ℕ), n ≤ fuel → digitsAuxF fuel n = Nat.digits 10 n := by
  intro fuel
  induction fuel with
  | zero =>
    intro n hn
    interval_cases n
    simp [digitsAuxF]
  | succ f ih =>
    intro n hn
    cases n with
    | zero => simp [digitsAuxF]
    | succ m =>
      have hdiv : (m + 1) / 10 ≤ f := by
        have := Nat.div_lt_self (Nat.succ_pos m) (by norm_num : 1 < 10)
        omega
      rw [digitsAuxF, Nat.digits_def' (by norm_num : (1:ℕ) < 10) (Nat.succ_pos m),
        ih ((m + 1) / 10) hdiv]

lemma decDigitsNat_eq (n : ℕ) : decDigitsNat n = Nat.digits 10 n :=
  digitsAuxF_eq_digits n n (le_refl n)

lemma digitChar_digit_facts {d : ℕ} (h : d < 10) :
    (Nat.digitChar d).isDigit = true ∧ (Nat.digitChar d).toNat - 48 = d ∧
      Nat.digitChar d ∈ fmtCharList := by
  interval_cases d <;> exact ⟨rfl, rfl, by decide⟩

lemma decDigits_mem_fmtCharList {n : ℕ} {c : Char} (h : c ∈ decDigits n) :
    c.isDigit = true ∧ c ∈ fmtCharList := by
  rw [decDigits, decDigitsNat_eq] at h
  obtain ⟨d, hd, rfl⟩ := List.mem_map.mp h
  have hd10 : d < 10 :=
    Nat.digits_lt_base (by norm_num) (List.mem_reverse.mp hd)
  exact ⟨(digitChar_digit_facts hd10).1, (digitChar_digit_facts hd10).2.2⟩

lemma decDigits_ne_nil {n : ℕ} (h : n ≠ 0) : decDigits n ≠ [] := by
  rw [decDigits, decDigitsNat_eq]
  simp [Nat.digits_ne_nil_iff_ne_zero.mpr h]

lemma decDigits_length_le {m k : ℕ} (h : m < 10 ^ k) : (decDigits m).length ≤ k := by
  rw [decDigits, decDigitsNat_eq, List.length_map, List.length_reverse]
  rcases Nat.eq_zero_or_pos m with rfl | hm
  · simp
  · have h1 := Nat.base_pow_length_digits_le 10 m (by norm_num) (by omega)
    have h2 : (10:ℕ) ^ (Nat.digits 10 m).length < 10 ^ (k + 1) := by
      calc (10:ℕ) ^ (Nat.digits 10 m).length ≤ 10 * m := h1
        _ < 10 * 10 ^ k := by omega
        _ = 10 ^ (k + 1) := by ring
    have := (Nat.pow_lt_pow_iff_right (by norm_num : 1 < 10)).mp h2
    omega

lemma dvAux_append (v : ℕ) (x y : List Char) :
    dvAux v (x ++ y) = (dvAux v x).bind (fun w => dvAux w y) := by
  induction x generalizing v with
  | nil => simp [dvAux]
  | cons c cs ih =>
    simp only [List.cons_append, dvAux]
    split_ifs with h
    · exact ih _
    · simp

lemma dvAux_digits (ds : List ℕ) (hds : ∀ d ∈ ds, d < 10) : ∀ (v : ℕ),
    dvAux v (ds.reverse.map Nat.digitChar) = some (v * 10 ^ ds.length + Nat.ofDigits 10 ds) := by
  induction ds with
  | nil => intro v; simp [dvAux]
  | cons d rest ih =>
    intro v
    have hd : d < 10 := hds d (List.mem_cons_self _ _)
    have hrest : ∀ x ∈ rest, x < 10 := fun x hx => hds x (List.mem_cons_of_mem _ hx)
    rw [List.reverse_cons, List.map_append, dvAux_append, ih hrest v]
    have h1 := digitChar_digit_facts hd
    simp only [List.map_cons, List.map_nil, Option.some_bind, dvAux, h1.1, if_true, h1.2.1]
    rw [Nat.ofDigits_cons, List.length_cons, pow_succ]
    ring_nf

lemma dv_decDigits (m : ℕ) : digitsVal? (decDigits m) = some m := by
  rw [digitsVal?, decDigits, decDigitsNat_eq]
  rw [dvAux_digits _ (fun d hd => Nat.digits_lt_base (by norm_num) hd) 0]
  simp [Nat.ofDigits_digits]

lemma dv_natToChars (n : ℕ) : digitsVal? (natToChars n) = some n := by
  rw [natToChars]
  split_ifs with h
  · subst h; rfl
  · exact dv_decDigits n

lemma dvAux_zeros (j : ℕ) : dvAux 0 (List.replicate j '0') = some 0 := by
  induction j with
  | zero => rfl
  | succ i ih => simpa [List.replicate_succ, dvAux] using ih

lemma dv_fracPad (m k : ℕ) : digitsVal? (fracPad m k) = some m := by
  rw [digitsVal?, fracPad, dvAux_append]
  rw [show dvAux 0 (List.replicate (k - (decDigits m).length) '0') = some 0 from
    dvAux_zeros _]
  simpa using dv_decDigits m

lemma natToChars_ne_nil (n : ℕ) : natToChars n ≠ [] := by
  rw [natToChars]
  split_ifs with h
  · simp
  · exact decDigits_ne_nil h

lemma natToChars_mem_fmtCharList {n : ℕ} {c : Char} (h : c ∈ natToChars n) :
    c.isDigit = true ∧ c ∈ fmtCharList := by
  rw [natToChars] at h
  split_ifs at h with h0
  · simp only [List.mem_singleton] at h
    subst h
    exact ⟨rfl, by decide⟩
  · exact decDigits_mem_fmtCharList h

lemma fracPad_mem_fmtCharList {m k : ℕ} {c : Char} (h : c ∈ fracPad m k) :
    c.isDigit = true ∧ c ∈ fmtCharList := by
  rw [fracPad] at h
  rcases List.mem_append.mp h with h | h
  · have := List.eq_of_mem_replicate h
    subst this
    exact ⟨rfl, by decide⟩
  · exact decDigits_mem_fmtCharList h

lemma fracPad_length {m k : ℕ} (h : m < 10 ^ k) : (fracPad m k).length = k := by
  rw [fracPad, List.length_append, List.length_replicate]
  have := decDigits_length_le h
  omega

/-! ## `fdExp` and `fmtQ` lemmas -/

lemma findLeast_spec (p : ℕ → Bool) :
    ∀ (fuel start : ℕ), (∃ j, j < fuel ∧ p (start + j) = true) →
      p (findLeast p fuel start) = true ∧
        ∀ i, start ≤ i → i < findLeast p fuel start → p i = false := by
  intro fuel
  induction fuel with
  | zero =>
    intro start h
    obtain ⟨j, hj, _⟩ := h
    omega
  | succ f ih =>
    intro start h
    cases hps : p start with
    | true =>
      rw [findLeast, if_pos hps]
      exact ⟨hps, fun i h1 h2 => absurd (lt_of_le_of_lt h1 h2) (lt_irrefl start)⟩
    | false =>
      obtain ⟨j, hj, hpj⟩ := h
      have hj0 : j ≠ 0 := by
        intro h0
        rw [h0, Nat.add_zero, hps] at hpj
        exact Bool.false_ne_true hpj
      have hex : ∃ j', j' < f ∧ p ((start + 1) + j') = true := by
        refine ⟨j - 1, by omega, ?_⟩
        have : (start + 1) + (j - 1) = start + j := by omega
        rw [this]
        exact hpj
      obtain ⟨hspec, hmin⟩ := ih (start + 1) hex
      rw [findLeast, if_neg (by simp [hps])]
      refine ⟨hspec, ?_⟩
      intro i h1 h2
      rcases eq_or_lt_of_le h1 with h1' | h1'
      · rw [← h1']; exact hps
      · exact hmin i (by omega) h2

lemma fdExp_exists {q : ℚ} (hq : IsFiniteDecimal q) :
    ∃ j, j < q.den + 1 ∧ ((fun k => (q * 10 ^ k).den == 1) (0 + j)) = true :=
  ⟨q.den, by omega, by simpa using hq⟩

lemma fdExp_den {q : ℚ} (hq : IsFiniteDecimal q) : (q * 10 ^ fdExp q).den = 1 := by
  have h := (findLeast_spec (fun k => (q * 10 ^ k).den == 1) (q.den + 1) 0
    (fdExp_exists hq)).1
  simpa [fdExp] using h

lemma fdExp_min {q : ℚ} (hq : IsFiniteDecimal q) :
    ∀ i, i < fdExp q → (q * 10 ^ i).den ≠ 1 := by
  intro i hi
  have h := (findLeast_spec (fun k => (q * 10 ^ k).den == 1) (q.den + 1) 0
    (fdExp_exists hq)).2 i (Nat.zero_le i) (by simpa [fdExp] using hi)
  simpa using h

/-- When `fdExp q` is positive, the fraction digits are not all zero: the
expansion carries no trailing-zero padding. -/
lemma fdExp_frac_ne_zero {q : ℚ} (hq : IsFiniteDecimal q) (hk : 0 < fdExp q) :
    (q * 10 ^ fdExp q).num.natAbs % 10 ^ fdExp q ≠ 0 := by
  intro h0
  have hden : (q * 10 ^ fdExp q).den = 1 := fdExp_den hq
  have hqm : ((q * 10 ^ fdExp q).num : ℚ) = q * 10 ^ fdExp q :=
    Rat.coe_int_num_of_den_eq_one hden
  have hdvd : ((10 : ℤ) ^ fdExp q) ∣ (q * 10 ^ fdExp q).num := by
    have : (10 : ℕ) ^ fdExp q ∣ (q * 10 ^ fdExp q).num.natAbs :=
      Nat.dvd_of_mod_eq_zero h0
    have h' := Int.natAbs_dvd.mpr (Int.ofNat_dvd.mpr this)
    simpa using h'
  obtain ⟨t, ht⟩ := hdvd
  have hqt : q = (t : ℚ) := by
    have h10 : ((10 : ℚ) ^ fdExp q) ≠ 0 := by positivity
    have h2 : q * 10 ^ fdExp q = (10 : ℚ) ^ fdExp q * (t : ℚ) := by
      rw [← hqm, ht]
      push_cast
      ring
    have h3 : (10 : ℚ) ^ fdExp q * q = (10 : ℚ) ^ fdExp q * (t : ℚ) := by
      rw [mul_comm]
      exact h2
    exact mul_left_cancel₀ h10 h3
  have : (q * 10 ^ (0 : ℕ)).den = 1 := by
    rw [pow_zero, mul_one, hqt]
    exact Rat.den_intCast t
  exact fdExp_min hq 0 hk this

/-! ## Character classification facts -/

lemma isDigit_facts {c : Char} (h : c.isDigit = true) :
    c ≠ '-' ∧ c ≠ '+' ∧ ((c == '.') : Bool) = false ∧
      ((c == 'e' || c == 'E') : Bool) = false := by
  refine ⟨?_, ?_, ?_, ?_⟩
  · intro he; rw [he] at h; exact absurd h (by decide)
  · intro he; rw [he] at h; exact absurd h (by decide)
  · cases hb : ((c == '.') : Bool) with
    | false => rfl
    | true =>
      have he : c = '.' := beq_iff_eq.mp hb
      rw [he] at h
      exact absurd h (by decide)
  · have h1 : ((c == 'e') : Bool) = false := by
      cases hb : ((c == 'e') : Bool) with
      | false => rfl
      | true =>
        have he : c = 'e' := beq_iff_eq.mp hb
        rw [he] at h
        exact absurd h (by decide)
    have h2 : ((c == 'E') : Bool) = false := by
      cases hb : ((c == 'E') : Bool) with
      | false => rfl
      | true =>
        have he : c = 'E' := beq_iff_eq.mp hb
        rw [he] at h
        exact absurd h (by decide)
    simp [h1, h2]

lemma fmtCharList_facts :
    ∀ c ∈ fmtCharList, ((c == 'e' || c == 'E') : Bool) = false ∧
      isRustWhitespace c = false ∧ c ≠ '\n' := by decide

/-! ## `splitAtFirst` lemmas -/

lemma splitAtFirst_of_none (p : Char → Bool) (s : List Char)
    (h : ∀ c ∈ s, p c = false) : splitAtFirst p s = (s, none) := by
  induction s with
  | nil => rfl
  | cons c cs ih =>
    have hc : p c = false := h c (List.mem_cons_self _ _)
    simp only [splitAtFirst, hc, Bool.false_eq_true, if_false,
      ih (fun a ha => h a (List.mem_cons_of_mem _ ha))]

lemma splitAtFirst_append (p : Char → Bool) (x y : List Char) (c0 : Char)
    (hx : ∀ c ∈ x, p c = false) (hc : p c0 = true) :
    splitAtFirst p (x ++ c0 :: y) = (x, some y) := by
  induction x with
  | nil => simp [splitAtFirst, hc]
  | cons c cs ih =>
    have hpc : p c = false := hx c (List.mem_cons_self _ _)
    simp only [List.cons_append, splitAtFirst, hpc, Bool.false_eq_true, if_false]
    rw [List.append_eq, ih (fun a ha => hx a (List.mem_cons_of_mem _ ha))]

/-! ## The mantissa of a formatted number parses back -/

lemma parseMantissa_int (n : ℕ) : parseMantissa? (natToChars n) = some (n : ℚ) := by
  have hnodot : ∀ c ∈ natToChars n, ((c == '.') : Bool) = false := fun c hc =>
    (isDigit_facts (natToChars_mem_fmtCharList hc).1).2.2.1
  simp only [parseMantissa?, splitAtFirst_of_none _ _ hnodot]
  simp [digitsValPos?, natToChars_ne_nil n, dv_natToChars n]

lemma parseMantissa_dot (i f k : ℕ) (hf : f < 10 ^ k) :
    parseMantissa? (natToChars i ++ '.' :: fracPad f k) =
      some ((i : ℚ) + (f : ℚ) / 10 ^ k) := by
  have hx : ∀ c ∈ natToChars i, ((c == '.') : Bool) = false := fun c hc =>
    (isDigit_facts (natToChars_mem_fmtCharList hc).1).2.2.1
  simp only [parseMantissa?,
    splitAtFirst_append (fun c => c == '.') (natToChars i) (fracPad f k) '.' hx (by decide)]
  rw [if_neg (by simp [natToChars_ne_nil i])]
  simp [dv_natToChars i, dv_fracPad f k, fracPad_length hf]

lemma parseQ_mantissa (s : List Char) (c0 : Char) (hh : s.head? = some c0)
    (hd : c0.isDigit = true)
    (hs : ∀ c ∈ s, ((c == 'e' || c == 'E') : Bool) = false) :
    parseQ s = (parseMantissa? s).map (fun v => (1 : ℚ) * v) ∧
      parseQ ('-' :: s) = (parseMantissa? s).map (fun v => (-1 : ℚ) * v) := by
  have hne : s ≠ [] := by intro h; rw [h] at hh; exact Option.noConfusion hh
  have hcm : c0 ≠ '-' := (isDigit_facts hd).1
  have hcp : c0 ≠ '+' := (isDigit_facts hd).2.1
  have h1 : ¬ (s.head? = some '-') := by
    rw [hh]
    intro h
    exact hcm (Option.some.inj h)
  have h2 : ¬ (s.head? = some '-' ∨ s.head? = some '+') := by
    rw [hh]
    rintro (h | h)
    · exact hcm (Option.some.inj h)
    · exact hcp (Option.some.inj h)
  constructor
  · simp only [parseQ, if_neg hne, if_neg h1, if_neg h2,
      splitAtFirst_of_none _ _ hs]
  · have hne' : ('-' :: s) ≠ [] := by simp
    simp only [parseQ, if_neg hne', List.head?_cons]
    simp [splitAtFirst_of_none _ _ hs]

lemma nat_div_mod_cast (a k : ℕ) :
    ((a / 10 ^ k : ℕ) : ℚ) + ((a % 10 ^ k : ℕ) : ℚ) / 10 ^ k = (a : ℚ) / 10 ^ k := by
  have h : (a / 10 ^ k) * 10 ^ k + a % 10 ^ k = a := by
    rw [Nat.mul_comm]
    exact Nat.div_add_mod a (10 ^ k)
  have h10 : ((10 : ℚ) ^ k) ≠ 0 := by positivity
  field_simp
  exact_mod_cast h

lemma natToChars_head (n : ℕ) :
    ∃ c t, natToChars n = c :: t ∧ c.isDigit = true := by
  cases hnc : natToChars n with
  | nil => exact absurd hnc (natToChars_ne_nil n)
  | cons c t =>
    refine ⟨c, t, rfl, ?_⟩
    exact (natToChars_mem_fmtCharList (by rw [hnc]; exact List.mem_cons_self _ _)).1

/-- Core of the formatting round trip, stated over the raw components of
`fmtQ`. -/
lemma parseQ_fmt_core (q : ℚ) (k : ℕ) (m : ℤ) (hm : (m : ℚ) = q * 10 ^ k) :
    parseQ ((if m < 0 then ['-'] else []) ++
      (if k = 0 then natToChars m.natAbs
       else natToChars (m.natAbs / 10 ^ k) ++ '.' :: fracPad (m.natAbs % 10 ^ k) k)) =
      some q := by
  have h10 : ((10 : ℚ) ^ k) ≠ 0 := by positivity
  have hq_eq : q = (m : ℚ) / 10 ^ k := by
    rw [hm]
    field_simp
  -- the unsigned body and its mantissa value
  have hman : parseMantissa?
      (if k = 0 then natToChars m.natAbs
       else natToChars (m.natAbs / 10 ^ k) ++ '.' :: fracPad (m.natAbs % 10 ^ k) k) =
      some ((m.natAbs : ℚ) / 10 ^ k) := by
    by_cases hk0 : k = 0
    · subst hk0
      rw [if_pos rfl, parseMantissa_int]
      norm_num
    · rw [if_neg hk0,
        parseMantissa_dot _ _ _ (Nat.mod_lt _ (by positivity)), nat_div_mod_cast]
  have hhead : ∃ c0 t, (if k = 0 then natToChars m.natAbs
      else natToChars (m.natAbs / 10 ^ k) ++ '.' :: fracPad (m.natAbs % 10 ^ k) k) =
        c0 :: t ∧ c0.isDigit = true := by
    by_cases hk0 : k = 0
    · rw [if_pos hk0]
      exact natToChars_head _
    · rw [if_neg hk0]
      obtain ⟨c0, t, hct, hcd⟩ := natToChars_head (m.natAbs / 10 ^ k)
      exact ⟨c0, t ++ '.' :: fracPad (m.natAbs % 10 ^ k) k, by rw [hct]; rfl, hcd⟩
  obtain ⟨c0, t, hct, hcd⟩ := hhead
  have hchars : ∀ c ∈ (if k = 0 then natToChars m.natAbs
      else natToChars (m.natAbs / 10 ^ k) ++ '.' :: fracPad (m.natAbs % 10 ^ k) k),
      ((c == 'e' || c == 'E') : Bool) = false := by
    intro c hc
    by_cases hk0 : k = 0
    · rw [if_pos hk0] at hc
      exact (fmtCharList_facts c (natToChars_mem_fmtCharList hc).2).1
    · rw [if_neg hk0] at hc
      rcases List.mem_append.mp hc with hc | hc
      · exact (fmtCharList_facts c (natToChars_mem_fmtCharList hc).2).1
      · rcases List.mem_cons.mp hc with hc | hc
        · rw [hc]; decide
        · exact (fmtCharList_facts c (fracPad_mem_fmtCharList hc).2).1
  have hp := parseQ_mantissa _ c0 (by rw [hct]; rfl) hcd hchars
  by_cases hm0 : m < 0
  · rw [if_pos hm0, List.singleton_append, hp.2, hman]
    have habs : ((m.natAbs : ℚ)) = -(m : ℚ) := by
      rw [Int.cast_natAbs, abs_of_neg hm0]
      push_cast
      ring
    rw [hq_eq]
    simp only [Option.map_some', Option.some_inj]
    rw [habs]
    ring
  · rw [if_neg hm0, List.nil_append, hp.1, hman]
    have habs : ((m.natAbs : ℚ)) = (m : ℚ) := by
      rw [Int.cast_natAbs, abs_of_nonneg (not_lt.mp hm0)]
    rw [hq_eq]
    simp only [Option.map_some', Option.some_inj]
    rw [habs]
    ring

/-- The decimal rendering of a finite-decimal rational parses back to exactly
that rational: `fmtQ` is a section of `parseQ`. -/
theorem parseQ_fmtQ (q : ℚ) (hq : IsFiniteDecimal q) : parseQ (fmtQ q) = some q := by
  have hden := fdExp_den hq
  have hqm : (((q * 10 ^ fdExp q).num : ℤ) : ℚ) = q * 10 ^ fdExp q :=
    Rat.coe_int_num_of_den_eq_one hden
  have hshape : fmtQ q = (if (q * 10 ^ fdExp q).num < 0 then ['-'] else []) ++
      (if fdExp q = 0 then natToChars (q * 10 ^ fdExp q).num.natAbs
       else natToChars ((q * 10 ^ fdExp q).num.natAbs / 10 ^ fdExp q) ++
         '.' :: fracPad ((q * 10 ^ fdExp q).num.natAbs % 10 ^ fdExp q) (fdExp q)) := by
    rw [fmtQ]
    by_cases hk0 : fdExp q = 0 <;> simp [hk0]
  rw [hshape]
  exact parseQ_fmt_core q (fdExp q) (q * 10 ^ fdExp q).num hqm

/-! ## Trimming lemmas -/

lemma mem_of_getLast_opt {l : List Char} {c : Char} (h : l.getLast? = some c) :
    c ∈ l := by
  have h' : l.reverse.head? = some c := by rw [List.head?_reverse]; exact h
  exact List.mem_reverse.mp (List.mem_of_mem_head? h')

lemma trimL_of_ends {l : List Char}
    (h1 : ∀ c, l.head? = some c → isRustWhitespace c = false)
    (h2 : ∀ c, l.getLast? = some c → isRustWhitespace c = false) : trimL l = l := by
  have hdw : l.dropWhile isRustWhitespace = l := by
    cases l with
    | nil => rfl
    | cons a t =>
      rw [List.dropWhile_cons, h1 a rfl]
      simp
  have hdw2 : l.reverse.dropWhile isRustWhitespace = l.reverse := by
    cases hr : l.reverse with
    | nil => simp
    | cons a t =>
      have ha : l.getLast? = some a := by
        rw [← List.head?_reverse, hr]
        rfl
      rw [List.dropWhile_cons, h2 a ha]
      simp
  rw [trimL, hdw, hdw2, List.reverse_reverse]

lemma trimL_of_all {l : List Char} (h : ∀ c ∈ l, isRustWhitespace c = false) :
    trimL l = l :=
  trimL_of_ends (fun c hc => h c (List.mem_of_mem_head? hc))
    (fun c hc => h c (mem_of_getLast_opt hc))

lemma dropWhile_head_false {l : List Char} (h : l.dropWhile isRustWhitespace = l) :
    ∀ c, l.head? = some c → isRustWhitespace c = false := by
  intro c hc
  cases l with
  | nil => exact Option.noConfusion hc
  | cons a t =>
    have hac : a = c := Option.some.inj hc
    subst hac
    cases hw : isRustWhitespace a with
    | false => rfl
    | true =>
      rw [List.dropWhile_cons, hw] at h
      have hsub := List.dropWhile_sublist (l := t) (p := isRustWhitespace)
      have := hsub.length_le
      simp only [if_true] at h
      have hlen := congrArg List.length h
      simp at hlen
      omega

lemma trimL_eq_self_ends {l : List Char} (h : trimL l = l) :
    (∀ c, l.head? = some c → isRustWhitespace c = false) ∧
      (∀ c, l.getLast? = some c → isRustWhitespace c = false) := by
  have hsub1 := List.dropWhile_sublist (l := l) (p := isRustWhitespace)
  have hlen1 := hsub1.length_le
  have hsub2 := List.dropWhile_sublist (l := (l.dropWhile isRustWhitespace).reverse)
    (p := isRustWhitespace)
  have hlen2 := hsub2.length_le
  have hltrim : (trimL l).length = l.length := by rw [h]
  have hlen3 : (trimL l).length =
      ((l.dropWhile isRustWhitespace).reverse.dropWhile isRustWhitespace).length := by
    simp [trimL]
  have hlen4 : ((l.dropWhile isRustWhitespace).reverse).length =
      (l.dropWhile isRustWhitespace).length := by simp
  have hueq : l.dropWhile isRustWhitespace = l :=
    hsub1.eq_of_length (by omega)
  refine ⟨dropWhile_head_false hueq, ?_⟩
  have hveq : l.reverse.dropWhile isRustWhitespace = l.reverse := by
    have h' : trimL l = (l.reverse.dropWhile isRustWhitespace).reverse := by
      rw [trimL, hueq]
    have hsub3 := List.dropWhile_sublist (l := l.reverse) (p := isRustWhitespace)
    refine hsub3.eq_of_length ?_
    have := congrArg List.length h'
    rw [h] at this
    simp at this
    simp
    omega
  intro c hc
  have hc' : l.reverse.head? = some c := by rw [List.head?_reverse]; exact hc
  exact dropWhile_head_false hveq c hc'

/-! ## `splitChar` and `interD` lemmas -/

lemma splitChar_not_mem {d : Char} {s : List Char} (h : d ∉ s) :
    splitChar d s = [s] := by
  induction s with
  | nil => rfl
  | cons c cs ih =>
    have hcd : ¬ (c = d) := fun he => h (he ▸ List.mem_cons_self c cs)
    rw [splitChar, if_neg hcd, ih (fun hm => h (List.mem_cons_of_mem _ hm))]

lemma splitChar_append {d : Char} {x y : List Char} (h : d ∉ x) :
    splitChar d (x ++ d :: y) = x :: splitChar d y := by
  induction x with
  | nil => simp [splitChar]
  | cons c cs ih =>
    have hcd : ¬ (c = d) := fun he => h (he ▸ List.mem_cons_self c cs)
    rw [List.cons_append, splitChar, if_neg hcd,
      ih (fun hm => h (List.mem_cons_of_mem _ hm))]

lemma splitChar_interD {d : Char} :
    ∀ (x : List Char) (xs : List (List Char)), (∀ col ∈ x :: xs, d ∉ col) →
      splitChar d (interD d (x :: xs)) = x :: xs := by
  intro x xs
  induction xs generalizing x with
  | nil => intro h; exact splitChar_not_mem (h x (List.mem_cons_self _ _))
  | cons y ys ih =>
    intro h
    rw [show interD d (x :: y :: ys) = x ++ d :: interD d (y :: ys) from rfl,
      splitChar_append (h x (List.mem_cons_self _ _)),
      ih y (fun col hc => h col (List.mem_cons_of_mem _ hc))]

lemma mem_interD {d : Char} :
    ∀ (cols : List (List Char)) (c : Char), c ∈ interD d cols →
      c = d ∨ ∃ col ∈ cols, c ∈ col := by
  intro cols
  induction cols with
  | nil => intro c h; simp [interD] at h
  | cons x xs ih =>
    intro c h
    cases xs with
    | nil => exact Or.inr ⟨x, List.mem_cons_self _ _, by simpa [interD] using h⟩
    | cons y ys =>
      rw [show interD d (x :: y :: ys) = x ++ d :: interD d (y :: ys) from rfl] at h
      rcases List.mem_append.mp h with h | h
      · exact Or.inr ⟨x, List.mem_cons_self _ _, h⟩
      · rcases List.mem_cons.mp h with h | h
        · exact Or.inl h
        · rcases ih c h with h' | ⟨col, hcol, hc⟩
          · exact Or.inl h'
          · exact Or.inr ⟨col, List.mem_cons_of_mem _ hcol, hc⟩

lemma interD_head_of_ne {d : Char} (x : List Char) (xs : List (List Char))
    (hx : x ≠ []) : (interD d (x :: xs)).head? = x.head? := by
  cases x with
  | nil => exact absurd rfl hx
  | cons a t =>
    cases xs with
    | nil => rfl
    | cons y ys => rfl

lemma interD_head_of_nil {d : Char} (y : List Char) (ys : List (List Char)) :
    (interD d ([] :: y :: ys)).head? = some d := rfl

lemma interD_getLast_concat {d : Char} :
    ∀ (cols : List (List Char)) (y : List Char), y ≠ [] →
      (interD d (cols ++ [y])).getLast? = y.getLast? := by
  intro cols
  induction cols with
  | nil => intro y _; simp [interD]
  | cons c cs ih =>
    intro y hy
    obtain ⟨cy, hcy⟩ : ∃ cy, y.getLast? = some cy := by
      cases hl : y.getLast? with
      | none => exact absurd (List.getLast?_eq_none_iff.mp hl) hy
      | some cc => exact ⟨cc, rfl⟩
    have ihy := ih y hy
    rw [List.cons_append]
    cases hcs : cs ++ [y] with
    | nil => simp at hcs
    | cons a as =>
      rw [hcs] at ihy
      rw [show interD d (c :: a :: as) = c ++ d :: interD d (a :: as) from rfl]
      have hz : interD d (a :: as) ≠ [] := by
        intro hznil
        rw [hznil] at ihy
        rw [hcy] at ihy
        exact Option.noConfusion ihy
      rw [List.getLast?_append]
      have : (d :: interD d (a :: as)).getLast? = (interD d (a :: as)).getLast? := by
        rw [show d :: interD d (a :: as) = [d] ++ interD d (a :: as) from rfl,
          List.getLast?_append, ihy, hcy]
        rfl
      rw [this, ihy, hcy]
      rfl

/-! ## Record-shape lemmas for `to_csv` -/

lemma dropLast_concat_flatten (d : Char) :
    ∀ (l : List (List Char)) (pre : List Char),
      ((pre ++ [d]) ++ (l.map (fun s => s ++ [d])).flatten).dropLast =
        interD d (pre :: l) := by
  intro l
  induction l with
  | nil =>
    intro pre
    simp [interD]
  | cons x xs ih =>
    intro pre
    have hassoc : (pre ++ [d]) ++ ((x :: xs).map (fun s => s ++ [d])).flatten =
        ((pre ++ d :: x) ++ [d]) ++ (xs.map (fun s => s ++ [d])).flatten := by
      simp [List.append_assoc]
    rw [hassoc, ih (pre ++ d :: x)]
    cases xs with
    | nil => simp [interD]
    | cons z zs => simp [interD, List.append_assoc]

/-- One `to_csv` record is its columns joined by the delimiter. -/
lemma KnnItem.toLine_eq_interD (it : KnnItem) (d : Char) :
    it.toLine d = interD d (it.label :: it.data.map fmtQ) := by
  rw [KnnItem.toLine, show it.data.map (fun q => fmtQ q ++ [d]) =
    (it.data.map fmtQ).map (fun s => s ++ [d]) from by rw [List.map_map]; rfl,
    dropLast_concat_flatten]

/-! ## `fmtQ` character facts -/

lemma fmtQ_shape (q : ℚ) : fmtQ q =
    (if (q * 10 ^ fdExp q).num < 0 then ['-'] else []) ++
      (if fdExp q = 0 then natToChars (q * 10 ^ fdExp q).num.natAbs
       else natToChars ((q * 10 ^ fdExp q).num.natAbs / 10 ^ fdExp q) ++
         '.' :: fracPad ((q * 10 ^ fdExp q).num.natAbs % 10 ^ fdExp q) (fdExp q)) := by
  rw [fmtQ]
  by_cases hk0 : fdExp q = 0 <;> simp [hk0]

lemma fmtQ_chars {q : ℚ} : ∀ c ∈ fmtQ q, c ∈ fmtCharList := by
  intro c h
  rw [fmtQ_shape] at h
  rcases List.mem_append.mp h with h | h
  · split_ifs at h
    · simp only [List.mem_singleton] at h
      rw [h]
      decide
    · simp at h
  · split_ifs at h with hk
    · exact (natToChars_mem_fmtCharList h).2
    · rcases List.mem_append.mp h with h | h
      · exact (natToChars_mem_fmtCharList h).2
      · rcases List.mem_cons.mp h with h | h
        · rw [h]; decide
        · exact (fracPad_mem_fmtCharList h).2

lemma fmtQ_ne_nil (q : ℚ) : fmtQ q ≠ [] := by
  rw [fmtQ_shape]
  intro h
  rcases List.append_eq_nil.mp h with ⟨_, h2⟩
  split_ifs at h2 with hk
  · exact natToChars_ne_nil _ h2
  · rcases List.append_eq_nil.mp h2 with ⟨h3, _⟩
    exact natToChars_ne_nil _ h3

lemma fmtQ_getLast_digit {q : ℚ} (hq : IsFiniteDecimal q) :
    ∃ c, (fmtQ q).getLast? = some c ∧ c.isDigit = true := by
  rw [fmtQ_shape]
  by_cases hk : fdExp q = 0
  · rw [if_pos hk]
    obtain ⟨c, hc⟩ : ∃ c, (natToChars (q * 10 ^ fdExp q).num.natAbs).getLast? = some c := by
      cases hl : (natToChars (q * 10 ^ fdExp q).num.natAbs).getLast? with
      | none => exact absurd (List.getLast?_eq_none_iff.mp hl) (natToChars_ne_nil _)
      | some cc => exact ⟨cc, rfl⟩
    refine ⟨c, ?_, (natToChars_mem_fmtCharList (mem_of_getLast_opt hc)).1⟩
    rw [List.getLast?_append, hc]
    rfl
  · rw [if_neg hk]
    have hfrac : (q * 10 ^ fdExp q).num.natAbs % 10 ^ fdExp q ≠ 0 :=
      fdExp_frac_ne_zero hq (Nat.pos_of_ne_zero hk)
    have hdd : decDigits ((q * 10 ^ fdExp q).num.natAbs % 10 ^ fdExp q) ≠ [] :=
      decDigits_ne_nil hfrac
    obtain ⟨c, hc⟩ : ∃ c,
        (decDigits ((q * 10 ^ fdExp q).num.natAbs % 10 ^ fdExp q)).getLast? = some c := by
      cases hl : (decDigits ((q * 10 ^ fdExp q).num.natAbs % 10 ^ fdExp q)).getLast? with
      | none => exact absurd (List.getLast?_eq_none_iff.mp hl) hdd
      | some cc => exact ⟨cc, rfl⟩
    refine ⟨c, ?_, (decDigits_mem_fmtCharList (mem_of_getLast_opt hc)).1⟩
    have hfp : (fracPad ((q * 10 ^ fdExp q).num.natAbs % 10 ^ fdExp q) (fdExp q)).getLast? =
        some c := by
      rw [fracPad, List.getLast?_append, hc]
      rfl
    rw [List.getLast?_append, List.getLast?_append]
    rw [show ('.' :: fracPad ((q * 10 ^ fdExp q).num.natAbs % 10 ^ fdExp q) (fdExp q)) =
      ['.'] ++ fracPad ((q * 10 ^ fdExp q).num.natAbs % 10 ^ fdExp q) (fdExp q) from rfl,
      List.getLast?_append, hfp]
    rfl

lemma isDigit_not_ws {c : Char} (h : c.isDigit = true) : isRustWhitespace c = false := by
  cases hw : isRustWhitespace c with
  | false => rfl
  | true =>
    exfalso
    have hm : c ∈ rustWsList := by
      rw [isRustWhitespace] at hw
      exact List.mem_of_elem_eq_true hw
    fin_cases hm <;> exact absurd h (by decide)

/-! ## `toLine` end-character and character-set lemmas -/

lemma toLine_head_not_ws {it : KnnItem} {d : Char} (hd : goodDelim d)
    (hit : goodItem d it) :
    ∃ c, (it.toLine d).head? = some c ∧ isRustWhitespace c = false := by
  rw [KnnItem.toLine_eq_interD]
  by_cases hlab : it.label = []
  · have hdata : it.data ≠ [] := by
      rcases hit.2.1 with h | h
      · exact absurd hlab h
      · exact h
    cases hmap : it.data.map fmtQ with
    | nil => exact absurd (List.map_eq_nil_iff.mp hmap) hdata
    | cons y ys =>
      rw [hlab, interD_head_of_nil]
      exact ⟨d, rfl, hd.2⟩
  · rw [interD_head_of_ne _ _ hlab]
    obtain ⟨c, t, hct⟩ : ∃ c t, it.label = c :: t := by
      cases hl : it.label with
      | nil => exact absurd hl hlab
      | cons c t => exact ⟨c, t, rfl⟩
    refine ⟨c, by rw [hct]; rfl, ?_⟩
    exact (trimL_eq_self_ends hit.1.1).1 c (by rw [hct]; rfl)

lemma toLine_getLast_not_ws {it : KnnItem} {d : Char} (hd : goodDelim d)
    (hit : goodItem d it) :
    ∃ c, (it.toLine d).getLast? = some c ∧ isRustWhitespace c = false := by
  rw [KnnItem.toLine_eq_interD]
  rcases it.data.eq_nil_or_concat with hdata | ⟨init, qlast, hdata⟩
  · have hlab : it.label ≠ [] := by
      rcases hit.2.1 with h | h
      · exact h
      · exact absurd hdata h
    rw [hdata]
    obtain ⟨c, hc⟩ : ∃ c, it.label.getLast? = some c := by
      cases hl : it.label.getLast? with
      | none => exact absurd (List.getLast?_eq_none_iff.mp hl) hlab
      | some cc => exact ⟨cc, rfl⟩
    refine ⟨c, ?_, (trimL_eq_self_ends hit.1.1).2 c hc⟩
    simpa [interD] using hc
  · have hq : IsFiniteDecimal qlast := by
      apply hit.2.2
      rw [hdata, List.concat_eq_append]
      exact List.mem_append.mpr (Or.inr (List.mem_singleton_self _))
    obtain ⟨c, hc, hcd⟩ := fmtQ_getLast_digit hq
    have hcols : it.label :: it.data.map fmtQ =
        (it.label :: (init.map fmtQ)) ++ [fmtQ qlast] := by
      rw [hdata, List.concat_eq_append, List.map_append]
      rfl
    rw [hcols, interD_getLast_concat _ _ (fmtQ_ne_nil qlast), hc]
    exact ⟨c, rfl, isDigit_not_ws hcd⟩

lemma trimL_toLine {it : KnnItem} {d : Char} (hd : goodDelim d)
    (hit : goodItem d it) : trimL (it.toLine d) = it.toLine d := by
  obtain ⟨c1, hc1, hw1⟩ := toLine_head_not_ws hd hit
  obtain ⟨c2, hc2, hw2⟩ := toLine_getLast_not_ws hd hit
  refine trimL_of_ends ?_ ?_
  · intro c hc
    rw [hc1] at hc
    rw [← Option.some.inj hc]
    exact hw1
  · intro c hc
    rw [hc2] at hc
    rw [← Option.some.inj hc]
    exact hw2

lemma toLine_ne_nil {it : KnnItem} {d : Char} (hd : goodDelim d)
    (hit : goodItem d it) : it.toLine d ≠ [] := by
  obtain ⟨c, hc, _⟩ := toLine_head_not_ws hd hit
  intro h
  rw [h] at hc
  exact Option.noConfusion hc

lemma stripCR_toLine {it : KnnItem} {d : Char} (hd : goodDelim d)
    (hit : goodItem d it) : stripCR (it.toLine d) = it.toLine d := by
  obtain ⟨c, hc, hw⟩ := toLine_getLast_not_ws hd hit
  rw [stripCR, hc]
  have : ¬ (c = '\r') := by
    intro he
    rw [he] at hw
    exact absurd hw (by decide)
  simp [this]

lemma newline_not_mem_toLine {it : KnnItem} {d : Char} (hd : goodDelim d)
    (hit : goodItem d it) : '\n' ∉ it.toLine d := by
  intro h
  rw [KnnItem.toLine_eq_interD] at h
  rcases mem_interD _ _ h with h | ⟨col, hcol, hc⟩
  · rw [← h] at hd
    exact absurd hd.2 (by decide)
  · rcases List.mem_cons.mp hcol with hcol | hcol
    · rw [hcol] at hc
      exact hit.1.2.2 hc
    · obtain ⟨q, _, hfq⟩ := List.mem_map.mp hcol
      rw [← hfq] at hc
      have := fmtQ_chars _ hc
      exact absurd this (by decide)

lemma splitChar_toLine {it : KnnItem} {d : Char} (hd : goodDelim d)
    (hit : goodItem d it) :
    splitChar d (it.toLine d) = it.label :: it.data.map fmtQ := by
  rw [KnnItem.toLine_eq_interD]
  apply splitChar_interD
  intro col hcol
  rcases List.mem_cons.mp hcol with hcol | hcol
  · rw [hcol]
    exact hit.1.2.1
  · obtain ⟨q, _, hfq⟩ := List.mem_map.mp hcol
    rw [← hfq]
    intro hdm
    exact hd.1 (fmtQ_chars _ hdm)

/-! ## Line-level and file-level round trip -/

lemma parseCols_fmt :
    ∀ (qs : List ℚ) (n : ℕ) (lab : List Char) (dat : List ℚ), n ≠ 0 →
      (∀ q ∈ qs, IsFiniteDecimal q) →
      parseCols (enumF n (qs.map fmtQ)) 0 lab dat = some (lab, dat ++ qs) := by
  intro qs
  induction qs with
  | nil => intro n lab dat _ _; simp [enumF, parseCols]
  | cons q rest ih =>
    intro n lab dat hn hq
    have htrim : trimL (fmtQ q) = fmtQ q :=
      trimL_of_all (fun c hc => (fmtCharList_facts c (fmtQ_chars c hc)).2.1)
    rw [List.map_cons,
      show enumF n (fmtQ q :: rest.map fmtQ) =
        (n, fmtQ q) :: enumF (n + 1) (rest.map fmtQ) from rfl,
      parseCols, if_neg hn, htrim, parseQ_fmtQ q (hq q (List.mem_cons_self _ _))]
    dsimp only
    rw [ih (n + 1) lab (dat ++ [q]) (Nat.succ_ne_zero n)
      (fun x hx => hq x (List.mem_cons_of_mem _ hx))]
    simp

lemma parseLine_toLine {it : KnnItem} {d : Char} (hd : goodDelim d)
    (hit : goodItem d it) : parseLine (it.toLine d) d 0 = some it := by
  rw [parseLine, splitChar_toLine hd hit,
    show enumF 0 (it.label :: it.data.map fmtQ) =
      (0, it.label) :: enumF 1 (it.data.map fmtQ) from rfl,
    parseCols, if_pos rfl, hit.1.1,
    parseCols_fmt it.data 1 it.label [] (Nat.one_ne_zero) hit.2.2]
  simp

lemma fromCsvLines_toLines {d : Char} (hd : goodDelim d) :
    ∀ (items : List KnnItem) (acc : List KnnItem), (∀ it ∈ items, goodItem d it) →
      fromCsvLines (items.map (fun it => it.toLine d)) d 0 acc =
        some (acc ++ items) := by
  intro items
  induction items with
  | nil => intro acc _; simp [fromCsvLines]
  | cons it rest ih =>
    intro acc h
    have hit := h it (List.mem_cons_self _ _)
    rw [List.map_cons, fromCsvLines]
    simp only [trimL_toLine hd hit]
    rw [if_neg (toLine_ne_nil hd hit), parseLine_toLine hd hit]
    dsimp only
    rw [ih (acc ++ [it]) (fun x hx => h x (List.mem_cons_of_mem _ hx))]
    simp

lemma splitChar_newline_flatten :
    ∀ (ls : List (List Char)), (∀ l ∈ ls, '\n' ∉ l) →
      splitChar '\n' ((ls.map (fun l => l ++ ['\n'])).flatten) = ls ++ [[]] := by
  intro ls
  induction ls with
  | nil => intro _; rfl
  | cons l rest ih =>
    intro h
    have hassoc : ((l :: rest).map (fun l => l ++ ['\n'])).flatten =
        l ++ '\n' :: (rest.map (fun l => l ++ ['\n'])).flatten := by
      simp [List.append_assoc]
    rw [hassoc, splitChar_append (h l (List.mem_cons_self _ _)),
      ih (fun x hx => h x (List.mem_cons_of_mem _ hx))]
    rfl

lemma linesL_flatten (ls : List (List Char))
    (h : ∀ l ∈ ls, '\n' ∉ l ∧ stripCR l = l) :
    linesL ((ls.map (fun l => l ++ ['\n'])).flatten) = ls := by
  simp only [linesL, splitChar_newline_flatten ls (fun l hl => (h l hl).1)]
  rw [if_pos (by simp)]
  rw [show (ls ++ [([] : List Char)]).dropLast = ls by simp]
  rw [List.map_congr_left (fun l hl => (h l hl).2)]
  simp

/-! ## Claim C1 -/

/-- C1 counterexample: the round-trip law fails as stated.  A store holding
one point whose label carries leading whitespace (`" a"`) exports to
`" a,1\n"`, and importing that with `from_csv` trims the line, so the
re-imported store holds the label `"a"`: the points sequence is not
reproduced. -/
theorem claim1_roundtrip_counterexample :
    padLabelStore.items ≠ [] ∧
      (KnnClassifier.new 5).from_csv (padLabelStore.to_csv ',') ',' 0 false =
        some ⟨5, [⟨['a'], [1]⟩]⟩ ∧
      (⟨5, [⟨['a'], [1]⟩]⟩ : KnnClassifier) ≠
        ⟨(KnnClassifier.new 5).k, padLabelStore.items⟩ := by
  refine ⟨by simp [padLabelStore], by with_unfolding_all rfl, ?_⟩
  exact of_decide_eq_false (by with_unfolding_all rfl)

/-- C1 (amended): the round trip holds for every delimiter that is neither
whitespace nor a character `fmtQ` can emit (digits, `'-'`, `'.'`), and every
non-empty store whose points have trim-invariant labels free of the
delimiter and of newlines, are not entirely blank (label or features
non-empty), and whose feature values have finite decimal expansions (as all
`f64` values do): importing the exported text into a fresh store of the same
`k` reproduces the points sequence exactly — same count, labels, numeric
values, and order. -/
theorem claim1_roundtrip (c : KnnClassifier) (d : Char) (k' : ℕ)
    (hne : c.items ≠ []) (hd : goodDelim d)
    (hit : ∀ it ∈ c.items, goodItem d it) :
    (KnnClassifier.new k').from_csv (c.to_csv d) d 0 false =
      some ⟨(KnnClassifier.new k').k, c.items⟩ := by
  have hcsv : c.to_csv d =
      ((c.items.map (fun it => it.toLine d)).map (fun l => l ++ ['\n'])).flatten := by
    rw [KnnClassifier.to_csv, List.map_map]
    rfl
  have hlines : linesL (c.to_csv d) = c.items.map (fun it => it.toLine d) := by
    rw [hcsv]
    refine linesL_flatten _ ?_
    intro l hl
    obtain ⟨it, hmem, hline⟩ := List.mem_map.mp hl
    rw [← hline]
    exact ⟨newline_not_mem_toLine hd (hit it hmem), stripCR_toLine hd (hit it hmem)⟩
  rw [KnnClassifier.from_csv]
  simp only [Bool.false_eq_true, if_false, hlines]
  rw [show (KnnClassifier.new k').items = [] from rfl,
    fromCsvLines_toLines hd c.items [] hit]
  rfl

/-- Witness for the amended C1: a two-point store with an integer and a
fractional feature value, delimiter `','`, imported into a fresh store with
requested `k = 7`. -/
theorem claim1_roundtrip_witness :
    (⟨3, [⟨"Obesity".toList, [150, 80]⟩, ⟨"Normal".toList, [1/2]⟩]⟩ :
        KnnClassifier).items ≠ [] ∧
      goodDelim ',' ∧
      (∀ it ∈ (⟨3, [⟨"Obesity".toList, [150, 80]⟩, ⟨"Normal".toList, [1/2]⟩]⟩ :
        KnnClassifier).items, goodItem ',' it) ∧
      (KnnClassifier.new 7).from_csv
          ((⟨3, [⟨"Obesity".toList, [150, 80]⟩, ⟨"Normal".toList, [1/2]⟩]⟩ :
            KnnClassifier).to_csv ',') ',' 0 false =
        some ⟨(KnnClassifier.new 7).k,
          (⟨3, [⟨"Obesity".toList, [150, 80]⟩, ⟨"Normal".toList, [1/2]⟩]⟩ :
            KnnClassifier).items⟩ :=
  ⟨by simp, of_decide_eq_true (by with_unfolding_all rfl),
    of_decide_eq_true (by with_unfolding_all rfl),
    claim1_roundtrip _ ',' 7 (by simp)
      (of_decide_eq_true (by with_unfolding_all rfl))
      (of_decide_eq_true (by with_unfolding_all rfl))⟩
